import Mathlib

/-
Verification development for the Bayesian confidence/fusion core of the
XAU_Bot repository.

Embedding conventions:
* Python floats are idealized as exact arithmetic: state values, strengths and
  weights become rationals, and the transcendental parts (log, exp) live in ℝ.
* Python dicts become insertion-ordered association lists
  (`List (String × α)`) with lookup, in-place assignment and pop mirroring
  dict semantics.
* The persisted state file is modelled by a write counter `saves` on the
  engine state: `_save()` increments it, so "does not persist" is
  "`saves` unchanged".
* Fallible code paths (the `assert` on the direction argument, `KeyError`
  lookups) are modelled with `Option`.
-/

namespace XAUBot

/-- Python dict lookup `d.get(k)` on an insertion-ordered association list. -/
def dictGet {α : Type} : List (String × α) → String → Option α
  | [], _ => none
  | (k', v) :: rest, k => if k' = k then some v else dictGet rest k

/-- Python dict assignment `d[k] = v`: replaces the binding in place if the key
exists, otherwise appends it (dicts preserve insertion order). -/
def dictSet {α : Type} : List (String × α) → String → α → List (String × α)
  | [], k, v => [(k, v)]
  | (k', v') :: rest, k, v =>
    if k' = k then (k, v) :: rest else (k', v') :: dictSet rest k v

/-- Python `d.pop(k)` (the returned value is read separately): removes the
binding of `k`, if any. -/
def dictPop {α : Type} : List (String × α) → String → List (String × α)
  | [], _ => []
  | (k', v') :: rest, k => if k' = k then rest else (k', v') :: dictPop rest k

/-- Python `k in d`. -/
def dictContains {α : Type} (d : List (String × α)) (k : String) : Bool :=
  (dictGet d k).isSome

/-- bot/utils/prob.py: EPS = 1e-12, idealized as the exact rational 10⁻¹². -/
def EPS {α : Type} [LinearOrderedField α] : α := 1 / 1000000000000

/-- bot/utils/prob.py: clip01 clamps into [EPS, 1 - EPS]. -/
def clip01 {α : Type} [LinearOrderedField α] (x : α) : α :=
  if x < EPS then EPS else if x > 1 - EPS then 1 - EPS else x

/-- bot/utils/prob.py: logit(p) = log(clip01(p) / (1 - clip01(p))). -/
noncomputable def logit (p : ℝ) : ℝ :=
  let p' := clip01 p
  Real.log (p' / (1 - p'))

/-- bot/utils/prob.py: the numerically-stable two-branch sigmoid. -/
noncomputable def sigmoid (x : ℝ) : ℝ :=
  if x ≥ 0 then 1 / (1 + Real.exp (-x)) else Real.exp x / (1 + Real.exp x)

/-- A Beta posterior's two shape parameters, as stored in bayes_state.json. -/
structure BetaNode where
  a : ℚ
  b : ℚ
deriving DecidableEq, Repr

/-- The exact posterior mean a/(a+b) the spec reasons about. -/
def meanOf (n : BetaNode) : ℚ :=
  n.a / (n.a + n.b)

/-- BayesianConfidenceEngine._beta_mean: a / max(a + b, 1e-12). -/
def betaMean (a b : ℚ) : ℚ :=
  a / max (a + b) EPS

/-- AdaptiveFeedback._nudge_beta (bot/ai_core/adaptive_feedback.py): add the
alpha-scaled success/failure weights, then soft-cap by rescaling both shape
parameters when their sum exceeds max_prior_total. -/
def nudgeBeta (node : BetaNode) (successW failureW alpha maxAB : ℚ) : BetaNode :=
  let a := node.a + alpha * successW
  let b := node.b + alpha * failureW
  let total := a + b
  if total > maxAB then
    let scale := maxAB / total
    ⟨a * scale, b * scale⟩
  else
    ⟨a, b⟩

/-- The per-node flattening step of BayesianMemory.apply_drift_correction
(bot/engines/bayes_memory.py): sig.a = 50 + (sig.a - 50) * 0.5, same for b. -/
def flattenNode (sig : BetaNode) : BetaNode :=
  ⟨50 + (sig.a - 50) * (1 / 2), 50 + (sig.b - 50) * (1 / 2)⟩

/-- SignalEvidence (bot/models/bayes_confidence.py): present ∈ {True, False,
None} and a strength scaling the contribution. -/
structure SigEv where
  present : Option Bool
  strength : ℚ
deriving DecidableEq, Repr

/-- Per-symbol entry of bayes_state.json: a base prior plus named signal
posteriors. -/
structure SymState where
  prior : BetaNode
  signals : List (String × BetaNode)
deriving DecidableEq, Repr

/-- A pending decision stored by register_decision, keyed by trade id. -/
structure Decision where
  symbol : String
  direction : String
  evidence : List (String × SigEv)
deriving DecidableEq, Repr

/-- The BayesianConfidenceEngine's mutable state: the per-symbol map, the
pending-decisions map, and a counter of _save() calls standing in for the
persisted state file. -/
structure EngineState where
  state : List (String × SymState)
  decisions : List (String × Decision)
  saves : ℕ
deriving DecidableEq, Repr

/-- The engine's constructor parameters that the modelled operations read. -/
structure EngineCfg where
  defaultAlpha : ℚ
  defaultBeta : ℚ
  signals : List String
  basePriorAlpha : ℚ
  basePriorBeta : ℚ
deriving DecidableEq, Repr

/-- The defaults from bayes_confidence.py: Beta(50,50) everywhere and the
three standard signals. -/
def defaultCfg : EngineCfg :=
  ⟨50, 50, ["kf_trend", "ou_revert", "stoch_momo"], 50, 50⟩

/-- Python str.lower(), for the ASCII directions used here. -/
def pyLower (s : String) : String :=
  ⟨s.data.map Char.toLower⟩

/-- BayesianConfidenceEngine._ensure_symbol: insert the default per-symbol
entry if the symbol is unknown. -/
def ensureSymbol (cfg : EngineCfg) (st : List (String × SymState)) (symbol : String) :
    List (String × SymState) :=
  if dictContains st symbol then st
  else
    dictSet st symbol
      ⟨⟨cfg.basePriorAlpha, cfg.basePriorBeta⟩,
       cfg.signals.map fun s => (s, ⟨cfg.defaultAlpha, cfg.defaultBeta⟩)⟩

/-- BayesianConfidenceEngine._signal_p: clip01 of the Beta mean of the stored
signal posterior; `none` models the KeyError on a missing key. -/
def signalP (st : List (String × SymState)) (symbol sig : String) : Option ℚ :=
  (dictGet st symbol).bind fun ss =>
    (dictGet ss.signals sig).map fun n => clip01 (betaMean n.a n.b)

/-- BayesianConfidenceEngine._prior_p, with `none` for a missing symbol. -/
def priorP (st : List (String × SymState)) (symbol : String) : Option ℚ :=
  (dictGet st symbol).map fun ss => clip01 (betaMean ss.prior.a ss.prior.b)

/-- Read accessor for a symbol's stored base prior. -/
def priorOf (es : EngineState) (symbol : String) : Option BetaNode :=
  (dictGet es.state symbol).map fun ss => ss.prior

/-- Read accessor for a symbol's stored signal posterior. -/
def signalOf (es : EngineState) (symbol sig : String) : Option BetaNode :=
  (dictGet es.state symbol).bind fun ss => dictGet ss.signals sig

/-- BayesianConfidenceEngine.register_decision: ensure the symbol and store
the evidence bundle under the trade id (last write wins). -/
def registerDecision (cfg : EngineCfg) (es : EngineState) (tradeId symbol direction : String)
    (evidence : List (String × SigEv)) : EngineState :=
  { es with
    state := ensureSymbol cfg es.state symbol,
    decisions := dictSet es.decisions tradeId ⟨symbol, pyLower direction, evidence⟩ }

/-- The credit-assignment branch of update_outcome: a signal that supported
the trade is rewarded on `a` for success and `b` for failure by `strength`;
a contradicting signal gets the flipped assignment. -/
def creditBeta (rec : BetaNode) (present success : Bool) (strength : ℚ) : BetaNode :=
  if present then
    if success then ⟨rec.a + strength, rec.b⟩ else ⟨rec.a, rec.b + strength⟩
  else
    if success then ⟨rec.a, rec.b + strength⟩ else ⟨rec.a + strength, rec.b⟩

/-- One signal's update inside update_outcome's evidence loop: skip when
present is None, auto-register a missing signal at the default Beta, then
apply the credit assignment scaled by strength. -/
def updateSignal (cfg : EngineCfg) (sigs : List (String × BetaNode)) (success : Bool)
    (sigName : String) (ev : SigEv) : List (String × BetaNode) :=
  match ev.present with
  | none => sigs
  | some pres =>
    let sigs' :=
      if dictContains sigs sigName then sigs
      else dictSet sigs sigName ⟨cfg.defaultAlpha, cfg.defaultBeta⟩
    let rec0 := (dictGet sigs' sigName).getD ⟨cfg.defaultAlpha, cfg.defaultBeta⟩
    dictSet sigs' sigName (creditBeta rec0 pres success ev.strength)

/-- BayesianConfidenceEngine.update_outcome: pop the pending bundle (silent
no-op for an unknown trade id), classify success as realized_pnl > 0, add a
full unit to the base prior's winning side, run the per-signal credit loop,
and persist (modelled by bumping `saves`). -/
def updateOutcome (cfg : EngineCfg) (es : EngineState) (tradeId : String)
    (realizedPnl : ℚ) : EngineState :=
  match dictGet es.decisions tradeId with
  | none => es
  | some dec =>
    let decisions' := dictPop es.decisions tradeId
    let st := ensureSymbol cfg es.state dec.symbol
    let success : Bool := decide (0 < realizedPnl)
    match dictGet st dec.symbol with
    | none => es
    | some ss =>
      let prior' :=
        if success then BetaNode.mk (ss.prior.a + 1) ss.prior.b
        else BetaNode.mk ss.prior.a (ss.prior.b + 1)
      let sigs' := dec.evidence.foldl
        (fun sg p => updateSignal cfg sg success p.1 p.2) ss.signals
      { state := dictSet st dec.symbol ⟨prior', sigs'⟩,
        decisions := decisions',
        saves := es.saves + 1 }

/-- BayesianMemory.apply_drift_correction (bot/engines/bayes_memory.py):
flatten every signal posterior of a known symbol halfway back toward the
Beta(50,50) prior. -/
def applyDriftCorrection (st : List (String × SymState)) (symbol : String) :
    List (String × SymState) :=
  match dictGet st symbol with
  | none => st
  | some ss =>
    dictSet st symbol
      { ss with signals := ss.signals.map fun p => (p.1, flattenNode p.2) }

/-- The output dict of compute_confidence: confidence, log_odds and prior. -/
structure CCOut where
  confidence : ℝ
  log_odds : ℝ
  prior : ℝ

/-- One iteration of compute_confidence's evidence loop: auto-register an
unknown signal at the default Beta, skip when present is None, otherwise add
strength * lr (or its negation for a contradicting signal) to the running
log-odds, where lr = log(p / (1 - p + 1e-12) + 1e-12) for the signal's
clipped posterior mean p. -/
noncomputable def ccStep (cfg : EngineCfg) (acc : SymState × ℝ) (item : String × SigEv) :
    SymState × ℝ :=
  let ss :=
    if dictContains acc.1.signals item.1 then acc.1
    else { acc.1 with signals := dictSet acc.1.signals item.1 ⟨cfg.defaultAlpha, cfg.defaultBeta⟩ }
  match item.2.present with
  | none => (ss, acc.2)
  | some pres =>
    let nd := (dictGet ss.signals item.1).getD ⟨cfg.defaultAlpha, cfg.defaultBeta⟩
    let p : ℚ := clip01 (betaMean nd.a nd.b)
    let lr : ℝ := Real.log ((p : ℝ) / (1 - (p : ℝ) + EPS) + EPS)
    let contrib : ℝ := if pres then (item.2.strength : ℝ) * lr else (item.2.strength : ℝ) * (-lr)
    (ss, acc.2 + contrib)

/-- The symbol's entry after _ensure_symbol inside compute_confidence; the
`getD` fallback is dead code since the symbol was just ensured. -/
def ccInit (cfg : EngineCfg) (es : EngineState) (symbol : String) : SymState :=
  (dictGet (ensureSymbol cfg es.state symbol) symbol).getD
    ⟨⟨cfg.basePriorAlpha, cfg.basePriorBeta⟩,
     cfg.signals.map fun s => (s, ⟨cfg.defaultAlpha, cfg.defaultBeta⟩)⟩

/-- The `prior = self._prior_p(symbol)` read inside compute_confidence. -/
def ccPrior (cfg : EngineCfg) (es : EngineState) (symbol : String) : ℚ :=
  clip01 (betaMean (ccInit cfg es symbol).prior.a (ccInit cfg es symbol).prior.b)

/-- The evidence loop of compute_confidence: final per-symbol state and final
log-odds, starting from logit(prior). -/
noncomputable def ccFoldResult (cfg : EngineCfg) (es : EngineState) (symbol : String)
    (evidence : List (String × SigEv)) : SymState × ℝ :=
  evidence.foldl (ccStep cfg) (ccInit cfg es symbol, logit ((ccPrior cfg es symbol : ℚ) : ℝ))

/-- BayesianConfidenceEngine.compute_confidence: assert the direction (Option
models the assert), ensure the symbol, start the log-odds at logit(prior),
fold the evidence loop, and return the updated state together with
{confidence = sigmoid(log_odds), log_odds, prior}. -/
noncomputable def computeConfidence (cfg : EngineCfg) (es : EngineState)
    (symbol direction : String) (evidence : List (String × SigEv)) :
    Option (EngineState × CCOut) :=
  if pyLower direction = "buy" ∨ pyLower direction = "sell" then
    let r := ccFoldResult cfg es symbol evidence
    some ({ es with state := dictSet (ensureSymbol cfg es.state symbol) symbol r.1 },
          ⟨sigmoid r.2, r.2, ((ccPrior cfg es symbol : ℚ) : ℝ)⟩)
  else none

/-- Invariant for the C2 scenario: every stored signal posterior is at the
default Beta(50,50). -/
def allDefault (ss : SymState) : Prop :=
  ∀ g nd, dictGet ss.signals g = some nd → nd = ⟨50, 50⟩

/-- Per-signal entry of weights_state.json (bot/engines/dynamic_weights.py):
EWMA accuracy, EWMA pseudo-variance, update count, last-update time and a
manual base multiplier. -/
structure WeightSig where
  ema_acc : ℚ
  ema_var : ℚ
  count : ℕ
  last_update : ℚ
  base : ℚ
deriving DecidableEq, Repr

/-- The full DynamicWeighting state: symbol → signal → WeightSig. -/
abbrev DWState := List (String × List (String × WeightSig))

/-- DynamicWeighting._ensure's fresh entry: ema_acc 0.55, ema_var 0.05,
count 0, last_update 0, base 1. -/
def dwDefaultSig : WeightSig := ⟨11 / 20, 1 / 20, 0, 0, 1⟩

/-- DynamicWeighting._ensure: setdefault(symbol, {}) then
setdefault(signal, fresh entry). -/
def dwEnsure (st : DWState) (symbol sig : String) : DWState :=
  let sym := (dictGet st symbol).getD []
  let sym' := if dictContains sym sig then sym else dictSet sym sig dwDefaultSig
  dictSet st symbol sym'

/-- The regime_bias lookup table inside DynamicWeighting.compute, with the
dict .get default 0. -/
def regimeBias (regime sig : String) : ℚ :=
  if regime = "trend" then
    if sig = "kf_trend" then 1
    else if sig = "kf_slope" then 1
    else if sig = "stoch_momo" then 1 / 2
    else if sig = "ou_revert" then -(1 / 2)
    else if sig = "ou_zscore" then -(2 / 5)
    else 0
  else if regime = "range" then
    if sig = "ou_revert" then 1
    else if sig = "ou_zscore" then 4 / 5
    else if sig = "kf_trend" then -(1 / 2)
    else if sig = "kf_slope" then -(1 / 2)
    else if sig = "stoch_momo" then -(1 / 5)
    else 0
  else 0

/-- The vol_penalty lookup table inside DynamicWeighting.compute, with the
dict .get default 0.2. -/
def volPenalty (sig : String) : ℚ :=
  if sig = "ou_revert" then 1
  else if sig = "ou_zscore" then 3 / 5
  else if sig = "kf_trend" then 1 / 5
  else if sig = "kf_slope" then 1 / 10
  else if sig = "stoch_momo" then 3 / 10
  else 1 / 5

/-- The per-signal score of DynamicWeighting.compute:
w_acc*(ema_acc-0.5)*2 - w_stab*clamp(ema_var,0,1) + w_reg*regime_bias
- w_vol*vol_penalty*clamp(vol,0,0.05)/0.05 with w_acc=3, w_stab=2, w_reg=1,
w_vol=0.5. -/
def dwScoreQ (s : WeightSig) (regime sig : String) (vol : ℚ) : ℚ :=
  3 * (s.ema_acc - 1 / 2) * 2
    + (-2 * min 1 (max 0 s.ema_var))
    + 1 * regimeBias regime sig
    + (-(1 / 2) * volPenalty sig * max 0 (min (1 / 20) vol) / (1 / 20))

/-- Python `regime = regime or "range"`: None and the empty string fall back
to "range" (Python `or` treats the empty string as falsy). -/
def dwRegime (regime : Option String) : String :=
  match regime with
  | none => "range"
  | some r => if r = "" then "range" else r

/-- Python `vol = 0.0 if vol is None else float(vol)`. -/
def dwVol (vol : Option ℚ) : ℚ :=
  vol.getD 0

/-- The pre-normalization raw weight: max(min_weight, base * exp(score)). -/
noncomputable def dwRaw (s : WeightSig) (regime sig : String) (vol minW : ℚ) : ℝ :=
  max (minW : ℝ) ((s.base : ℝ) * Real.exp ((dwScoreQ s regime sig vol : ℚ) : ℝ))

/-- One iteration of compute's scoring loop: ensure the entry, read it back,
and record the raw weight under the signal's key. -/
noncomputable def dwZStep (symbol regime : String) (vol minW : ℚ)
    (acc : DWState × List (String × ℝ)) (sig : String) : DWState × List (String × ℝ) :=
  let st := dwEnsure acc.1 symbol sig
  let s := (dictGet ((dictGet st symbol).getD []) sig).getD dwDefaultSig
  (st, dictSet acc.2 sig (dwRaw s regime sig vol minW))

/-- The scoring loop of DynamicWeighting.compute: final state and the raw
weight dict z. -/
noncomputable def dwZ (dw : DWState) (symbol regime : String) (vol minW : ℚ)
    (names : List String) : DWState × List (String × ℝ) :=
  names.foldl (dwZStep symbol regime vol minW) (dw, [])

/-- Sum of a weight dict's values. -/
noncomputable def sumValues (d : List (String × ℝ)) : ℝ :=
  (d.map Prod.snd).sum

/-- compute's degenerate fallback: the uniform dict
{sig: 1/max(1,len(signal_names))}. -/
noncomputable def dwUniform (names : List String) : List (String × ℝ) :=
  names.foldl (fun acc sig => dictSet acc sig ((1 : ℝ) / ((max 1 names.length : ℕ) : ℝ))) []

/-- DynamicWeighting.compute: default the regime and vol, run the scoring
loop, and either fall back to the uniform dict (total ≤ 0) or normalize the
raw weights to sum 1. -/
noncomputable def dwCompute (minW : ℚ) (dw : DWState) (symbol : String)
    (names : List String) (regime : Option String) (vol : Option ℚ) :
    List (String × ℝ) :=
  let z := dwZ dw symbol (dwRegime regime) (dwVol vol) minW names
  let ssum := sumValues z.2
  if ssum ≤ 0 then dwUniform names
  else names.foldl (fun acc sig => dictSet acc sig ((dictGet z.2 sig).getD 0 / ssum)) []

@[simp]
theorem dictGet_nil {α : Type} (k : String) : dictGet ([] : List (String × α)) k = none :=
  rfl

theorem dictGet_cons {α : Type} (k' : String) (v : α) (rest : List (String × α)) (k : String) :
    dictGet ((k', v) :: rest) k = if k' = k then some v else dictGet rest k :=
  rfl

@[simp]
theorem dictGet_dictSet_self {α : Type} (d : List (String × α)) (k : String) (v : α) :
    dictGet (dictSet d k v) k = some v := by
  induction d with
  | nil => simp [dictGet, dictSet]
  | cons hd tl ih =>
    obtain ⟨k', v'⟩ := hd
    by_cases h : k' = k
    · subst h
      simp [dictGet, dictSet]
    · simp [dictGet, dictSet, h, ih]

theorem dictGet_dictSet_ne {α : Type} (d : List (String × α)) (k k₀ : String) (v : α)
    (h : k ≠ k₀) : dictGet (dictSet d k v) k₀ = dictGet d k₀ := by
  induction d with
  | nil => simp [dictGet, dictSet, h]
  | cons hd tl ih =>
    obtain ⟨k', v'⟩ := hd
    by_cases h' : k' = k
    · subst h'
      simp [dictGet, dictSet, h]
    · simp [dictGet, dictSet, h', ih]

theorem dictGet_eq_none_of_not_mem {α : Type} (d : List (String × α)) (k : String)
    (h : k ∉ d.map Prod.fst) : dictGet d k = none := by
  induction d with
  | nil => rfl
  | cons hd tl ih =>
    obtain ⟨k', v'⟩ := hd
    simp only [List.map_cons, List.mem_cons, not_or] at h
    simp only [dictGet_cons, if_neg (Ne.symm h.1), ih h.2]

theorem dictGet_dictPop_self {α : Type} (d : List (String × α)) (k : String)
    (hnd : (d.map Prod.fst).Nodup) : dictGet (dictPop d k) k = none := by
  induction d with
  | nil => rfl
  | cons hd tl ih =>
    obtain ⟨k', v'⟩ := hd
    simp only [List.map_cons, List.nodup_cons] at hnd
    by_cases h : k' = k
    · subst h
      simp only [dictPop, if_pos rfl]
      exact dictGet_eq_none_of_not_mem tl _ hnd.1
    · simp only [dictPop, if_neg h, dictGet_cons, if_neg h]
      exact ih hnd.2

theorem dictGet_dictPop_ne {α : Type} (d : List (String × α)) (k k₀ : String)
    (h : k ≠ k₀) : dictGet (dictPop d k) k₀ = dictGet d k₀ := by
  induction d with
  | nil => simp [dictPop]
  | cons hd tl ih =>
    obtain ⟨k', v'⟩ := hd
    by_cases h' : k' = k
    · subst h'
      simp [dictPop, dictGet_cons, h]
    · simp [dictPop, dictGet_cons, h', ih]

theorem dictSet_of_get_none {α : Type} (d : List (String × α)) (k : String) (v : α)
    (h : dictGet d k = none) : dictSet d k v = d ++ [(k, v)] := by
  induction d with
  | nil => simp [dictSet]
  | cons hd tl ih =>
    obtain ⟨k', v'⟩ := hd
    by_cases h' : k' = k
    · simp [dictGet_cons, h'] at h
    · simp only [dictGet_cons, if_neg h'] at h
      simp [dictSet, h', ih h]

theorem dictGet_append_of_none {α : Type} (d₁ d₂ : List (String × α)) (k : String)
    (h : dictGet d₁ k = none) : dictGet (d₁ ++ d₂) k = dictGet d₂ k := by
  induction d₁ with
  | nil => simp
  | cons hd tl ih =>
    obtain ⟨k', v'⟩ := hd
    by_cases h' : k' = k
    · simp [dictGet_cons, h'] at h
    · simp only [dictGet_cons, if_neg h'] at h
      simp [dictGet_cons, h', ih h]

theorem clip01_le {α : Type} [LinearOrderedField α] (x : α) :
    EPS ≤ clip01 x ∧ clip01 x ≤ 1 - EPS := by
  have heps : (EPS : α) ≤ 1 - EPS := by norm_num [EPS]
  unfold clip01
  split
  · exact ⟨le_refl _, heps⟩
  · split
    · exact ⟨heps, le_refl _⟩
    · constructor <;> [exact le_of_not_lt (by assumption); exact le_of_not_lt (by assumption)]

theorem clip01_pos {α : Type} [LinearOrderedField α] (x : α) : 0 < clip01 x :=
  lt_of_lt_of_le (by norm_num [EPS]) (clip01_le x).1

theorem clip01_lt_one {α : Type} [LinearOrderedField α] (x : α) : clip01 x < 1 :=
  lt_of_le_of_lt (clip01_le x).2 (by norm_num [EPS])

theorem clip01_eq_self {α : Type} [LinearOrderedField α] (x : α)
    (h1 : EPS ≤ x) (h2 : x ≤ 1 - EPS) : clip01 x = x := by
  unfold clip01
  rw [if_neg (not_lt.2 h1), if_neg (not_lt.2 h2)]

/-- C4 counterexample: with Beta(100,1), success_weight 3/5 > failure_weight
2/5 ≥ 0, update strength 3/4 and cap 2500 (no rescaling triggers), the nudged
posterior mean strictly DECREASES, refuting the claim that
success_weight > failure_weight always increases the mean. -/
theorem claim_C4_counterexample :
    (2 : ℚ) / 5 < 3 / 5 ∧ (0 : ℚ) ≤ 2 / 5
    ∧ ((100 : ℚ) + (3 / 4) * (3 / 5)) + (1 + (3 / 4) * (2 / 5)) ≤ 2500
    ∧ meanOf (nudgeBeta ⟨100, 1⟩ (3 / 5) (2 / 5) (3 / 4) 2500) < meanOf ⟨100, 1⟩ := by
  refine ⟨by norm_num, by norm_num, by norm_num, ?_⟩
  norm_num [nudgeBeta, meanOf]

/-- C4 (amended): absent cap rescaling, a nudge with nonnegative weights and
positive update strength strictly increases the posterior mean a/(a+b) iff
success_weight * b > failure_weight * a, and strictly decreases it iff
success_weight * b < failure_weight * a; success_weight > failure_weight
alone does not decide the direction. -/
theorem claim_C4_nudge_mean_direction (node : BetaNode) (sw fw alpha cap : ℚ)
    (ha : 0 < node.a) (hb : 0 < node.b) (halpha : 0 < alpha)
    (hsw : 0 ≤ sw) (hfw : 0 ≤ fw)
    (hnocap : (node.a + alpha * sw) + (node.b + alpha * fw) ≤ cap) :
    (meanOf node < meanOf (nudgeBeta node sw fw alpha cap) ↔ fw * node.a < sw * node.b)
    ∧ (meanOf (nudgeBeta node sw fw alpha cap) < meanOf node ↔ sw * node.b < fw * node.a) := by
  have hno : nudgeBeta node sw fw alpha cap
      = ⟨node.a + alpha * sw, node.b + alpha * fw⟩ := by
    simp only [nudgeBeta]
    rw [if_neg (not_lt.2 hnocap)]
  have hd1 : (0 : ℚ) < node.a + node.b := by linarith
  have hd2 : (0 : ℚ) < (node.a + alpha * sw) + (node.b + alpha * fw) := by nlinarith
  rw [hno]
  unfold meanOf
  simp only
  constructor
  · rw [div_lt_div_iff hd1 hd2]
    constructor
    · intro h
      have h' : alpha * (fw * node.a) < alpha * (sw * node.b) := by nlinarith
      exact lt_of_mul_lt_mul_left h' (le_of_lt halpha)
    · intro h
      nlinarith [mul_lt_mul_of_pos_left h halpha]
  · rw [div_lt_div_iff hd2 hd1]
    constructor
    · intro h
      have h' : alpha * (sw * node.b) < alpha * (fw * node.a) := by nlinarith
      exact lt_of_mul_lt_mul_left h' (le_of_lt halpha)
    · intro h
      nlinarith [mul_lt_mul_of_pos_left h halpha]

/-- C4 witness: concrete instance of the amended nudge-direction theorem at
Beta(50,50) with weights 1 and 0. -/
theorem claim_C4_witness :
    (meanOf ⟨50, 50⟩ < meanOf (nudgeBeta ⟨50, 50⟩ 1 0 (3 / 4) 2500) ↔
      (0 : ℚ) * 50 < 1 * 50)
    ∧ (meanOf (nudgeBeta ⟨50, 50⟩ 1 0 (3 / 4) 2500) < meanOf ⟨50, 50⟩ ↔
      (1 : ℚ) * 50 < 0 * 50) :=
  claim_C4_nudge_mean_direction ⟨50, 50⟩ 1 0 (3 / 4) 2500 (by norm_num) (by norm_num)
    (by norm_num) (by norm_num) (by norm_num) (by norm_num)

/-- C5 counterexample: a stored posterior with a = b = 1e-13 > 0 has
a/(a+b) = 1/2, but _signal_p returns clip01(1e-13 / max(2e-13, 1e-12)) = 1/10,
refuting exact equality with a/(a+b) for all positive a, b. -/
theorem claim_C5_counterexample :
    signalP
        [("XAUUSD",
          ⟨⟨50, 50⟩, [("kf_trend", ⟨1 / 10000000000000, 1 / 10000000000000⟩)]⟩)]
        "XAUUSD" "kf_trend"
      ≠ some ((1 / 10000000000000 : ℚ) / (1 / 10000000000000 + 1 / 10000000000000)) := by
  have h1 : betaMean (1 / 10000000000000 : ℚ) (1 / 10000000000000) = 1 / 10 := by
    unfold betaMean
    rw [max_eq_right (by norm_num [EPS])]
    norm_num [EPS]
  have h2 : clip01 ((1 : ℚ) / 10) = 1 / 10 :=
    clip01_eq_self _ (by norm_num [EPS]) (by norm_num [EPS])
  have hsig : signalP
      [("XAUUSD",
        ⟨⟨50, 50⟩, [("kf_trend", ⟨1 / 10000000000000, 1 / 10000000000000⟩)]⟩)]
      "XAUUSD" "kf_trend"
      = some (clip01 (betaMean (1 / 10000000000000 : ℚ) (1 / 10000000000000))) := rfl
  rw [hsig, h1, h2]
  intro h
  rw [Option.some.injEq] at h
  norm_num at h

/-- C5 (amended): for a stored posterior with a, b > 0, _signal_p returns
clip01(a / max(a+b, 1e-12)), a value strictly inside (0,1) that is never
exactly 0 or 1; it equals a/(a+b) exactly provided a+b ≥ 1e-12 and a/(a+b)
lies inside [1e-12, 1 - 1e-12]. -/
theorem claim_C5_posterior_mean_read (st : List (String × SymState)) (symbol sig : String)
    (ss : SymState) (nd : BetaNode)
    (hs : dictGet st symbol = some ss) (hn : dictGet ss.signals sig = some nd)
    (ha : 0 < nd.a) (hb : 0 < nd.b) :
    signalP st symbol sig = some (clip01 (betaMean nd.a nd.b))
    ∧ 0 < clip01 (betaMean nd.a nd.b) ∧ clip01 (betaMean nd.a nd.b) < 1
    ∧ (EPS ≤ nd.a + nd.b → EPS ≤ nd.a / (nd.a + nd.b) → nd.a / (nd.a + nd.b) ≤ 1 - EPS →
        clip01 (betaMean nd.a nd.b) = nd.a / (nd.a + nd.b)) := by
  refine ⟨by simp [signalP, hs, hn], clip01_pos _, clip01_lt_one _, ?_⟩
  intro h1 h2 h3
  have hmax : betaMean nd.a nd.b = nd.a / (nd.a + nd.b) := by
    unfold betaMean
    rw [max_eq_left h1]
  rw [hmax, clip01_eq_self _ h2 h3]

/-- C5 witness: concrete instance of the amended read theorem at the default
Beta(50,50) posterior. -/
theorem claim_C5_witness :
    signalP [("XAUUSD", ⟨⟨50, 50⟩, [("kf_trend", ⟨50, 50⟩)]⟩)] "XAUUSD" "kf_trend"
      = some (clip01 (betaMean 50 50))
    ∧ 0 < clip01 (betaMean (50 : ℚ) 50) ∧ clip01 (betaMean (50 : ℚ) 50) < 1
    ∧ (EPS ≤ (50 : ℚ) + 50 → EPS ≤ (50 : ℚ) / (50 + 50) → (50 : ℚ) / (50 + 50) ≤ 1 - EPS →
        clip01 (betaMean (50 : ℚ) 50) = 50 / (50 + 50)) :=
  claim_C5_posterior_mean_read
    [("XAUUSD", ⟨⟨50, 50⟩, [("kf_trend", ⟨50, 50⟩)]⟩)] "XAUUSD" "kf_trend"
    ⟨⟨50, 50⟩, [("kf_trend", ⟨50, 50⟩)]⟩ ⟨50, 50⟩ rfl rfl (by norm_num) (by norm_num)

/-- C6: flattening with shrink factor 0.5 maps (a, b) to
(50 + (a-50)/2, 50 + (b-50)/2); for positive a, b the new mean is strictly
closer to 1/2 whenever a ≠ b, and stays exactly 1/2 when a = b. -/
theorem claim_C6_flatten_contracts (node : BetaNode) (ha : 0 < node.a) (hb : 0 < node.b) :
    flattenNode node = ⟨50 + (node.a - 50) * (1 / 2), 50 + (node.b - 50) * (1 / 2)⟩
    ∧ (node.a ≠ node.b →
        |meanOf (flattenNode node) - 1 / 2| < |meanOf node - 1 / 2|)
    ∧ (node.a = node.b → meanOf (flattenNode node) = 1 / 2) := by
  have hd1 : (0 : ℚ) < node.a + node.b := by linarith
  have hd2 : (0 : ℚ) < node.a + node.b + 100 := by linarith
  have hm2 : meanOf (flattenNode node) = (node.a + 50) / (node.a + node.b + 100) := by
    unfold meanOf flattenNode
    simp only
    rw [div_eq_div_iff (by linarith : (50 + (node.a - 50) * (1 / 2)) + (50 + (node.b - 50) * (1 / 2)) ≠ 0) (ne_of_gt hd2)]
    ring
  refine ⟨rfl, ?_, ?_⟩
  · intro hne
    have e1 : meanOf node - 1 / 2 = (node.a - node.b) / (2 * (node.a + node.b)) := by
      unfold meanOf
      field_simp
      ring
    have e2 : meanOf (flattenNode node) - 1 / 2
        = (node.a - node.b) / (2 * (node.a + node.b + 100)) := by
      rw [hm2]
      field_simp
      ring
    rw [e1, e2, abs_div, abs_div, abs_of_pos (by linarith : (0:ℚ) < 2 * (node.a + node.b)),
      abs_of_pos (by linarith : (0:ℚ) < 2 * (node.a + node.b + 100))]
    exact div_lt_div_of_pos_left (abs_pos.2 (sub_ne_zero.2 hne)) (by linarith) (by linarith)
  · intro heq
    rw [hm2, heq, div_eq_iff (by linarith : node.b + node.b + 100 ≠ 0)]
    ring

/-- C6 witness: concrete instance of the flatten theorem at Beta(70, 40). -/
theorem claim_C6_witness :
    flattenNode ⟨70, 40⟩ = ⟨50 + ((70 : ℚ) - 50) * (1 / 2), 50 + ((40 : ℚ) - 50) * (1 / 2)⟩
    ∧ ((70 : ℚ) ≠ 40 →
        |meanOf (flattenNode ⟨70, 40⟩) - 1 / 2| < |meanOf ⟨70, 40⟩ - 1 / 2|)
    ∧ ((70 : ℚ) = 40 → meanOf (flattenNode ⟨70, 40⟩) = 1 / 2) :=
  claim_C6_flatten_contracts ⟨70, 40⟩ (by norm_num) (by norm_num)

/-- C7: a nudge whose pre-rescale total exceeds the (positive) cap rescales
both shape parameters by cap/(a+b), after which a + b equals the cap and in
particular is at most the cap. -/
theorem claim_C7_nudge_cap_invariant (node : BetaNode) (sw fw alpha cap : ℚ)
    (hcap : 0 < cap)
    (htrig : cap < (node.a + alpha * sw) + (node.b + alpha * fw)) :
    nudgeBeta node sw fw alpha cap
      = ⟨(node.a + alpha * sw) * (cap / ((node.a + alpha * sw) + (node.b + alpha * fw))),
         (node.b + alpha * fw) * (cap / ((node.a + alpha * sw) + (node.b + alpha * fw)))⟩
    ∧ (nudgeBeta node sw fw alpha cap).a + (nudgeBeta node sw fw alpha cap).b ≤ cap := by
  have ht : (0 : ℚ) < (node.a + alpha * sw) + (node.b + alpha * fw) := lt_trans hcap htrig
  have hres : nudgeBeta node sw fw alpha cap
      = ⟨(node.a + alpha * sw) * (cap / ((node.a + alpha * sw) + (node.b + alpha * fw))),
         (node.b + alpha * fw) * (cap / ((node.a + alpha * sw) + (node.b + alpha * fw)))⟩ := by
    simp only [nudgeBeta]
    rw [if_pos htrig]
  refine ⟨hres, ?_⟩
  rw [hres]
  simp only
  have hsum : (node.a + alpha * sw) * (cap / ((node.a + alpha * sw) + (node.b + alpha * fw)))
      + (node.b + alpha * fw) * (cap / ((node.a + alpha * sw) + (node.b + alpha * fw)))
      = cap := by
    field_simp
    ring
  rw [hsum]

/-- C7 witness: concrete instance of the cap invariant with Beta(2400, 200),
weights 1/0, strength 3/4 and cap 2500. -/
theorem claim_C7_witness :
    nudgeBeta ⟨2400, 200⟩ 1 0 (3 / 4) 2500
      = ⟨((2400 : ℚ) + (3 / 4) * 1) * (2500 / (((2400 : ℚ) + (3 / 4) * 1) + (200 + (3 / 4) * 0))),
         ((200 : ℚ) + (3 / 4) * 0) * (2500 / (((2400 : ℚ) + (3 / 4) * 1) + (200 + (3 / 4) * 0)))⟩
    ∧ (nudgeBeta ⟨2400, 200⟩ 1 0 (3 / 4) 2500).a
        + (nudgeBeta ⟨2400, 200⟩ 1 0 (3 / 4) 2500).b ≤ 2500 :=
  claim_C7_nudge_cap_invariant ⟨2400, 200⟩ 1 0 (3 / 4) 2500 (by norm_num) (by norm_num)

theorem dictGet_ensureSymbol_self (cfg : EngineCfg) (st : List (String × SymState))
    (symbol : String) :
    dictGet (ensureSymbol cfg st symbol) symbol
      = some ((dictGet st symbol).getD
          ⟨⟨cfg.basePriorAlpha, cfg.basePriorBeta⟩,
           cfg.signals.map fun s => (s, ⟨cfg.defaultAlpha, cfg.defaultBeta⟩)⟩) := by
  unfold ensureSymbol dictContains
  cases h : dictGet st symbol with
  | none => simp [h]
  | some ss => simp [h]

theorem dictGet_ensureSymbol_ne (cfg : EngineCfg) (st : List (String × SymState))
    (symbol k : String) (h : symbol ≠ k) :
    dictGet (ensureSymbol cfg st symbol) k = dictGet st k := by
  unfold ensureSymbol dictContains
  cases hs : dictGet st symbol with
  | none => simp [dictGet_dictSet_ne _ _ _ _ h]
  | some ss => simp

theorem ensureSymbol_idem (cfg : EngineCfg) (st : List (String × SymState)) (symbol : String) :
    ensureSymbol cfg (ensureSymbol cfg st symbol) symbol = ensureSymbol cfg st symbol := by
  cases h : dictGet st symbol with
  | some ss =>
    unfold ensureSymbol dictContains
    simp [h]
  | none =>
    unfold ensureSymbol dictContains
    simp [h]

theorem updateSignal_get_ne (cfg : EngineCfg) (sg : List (String × BetaNode)) (succ : Bool)
    (m : String) (e : SigEv) (n : String) (h : m ≠ n) :
    dictGet (updateSignal cfg sg succ m e) n = dictGet sg n := by
  cases hp : e.present with
  | none => simp [updateSignal, hp]
  | some pres =>
    simp only [updateSignal, hp]
    by_cases hc : dictContains sg m
    · simp only [if_pos hc]
      exact dictGet_dictSet_ne _ _ _ _ h
    · simp only [if_neg hc]
      rw [dictGet_dictSet_ne _ _ _ _ h, dictGet_dictSet_ne _ _ _ _ h]

theorem updateSignal_get_self (cfg : EngineCfg) (sg : List (String × BetaNode)) (succ : Bool)
    (n : String) (e : SigEv) (pres : Bool) (hp : e.present = some pres) :
    dictGet (updateSignal cfg sg succ n e) n
      = some (creditBeta ((dictGet sg n).getD ⟨cfg.defaultAlpha, cfg.defaultBeta⟩)
          pres succ e.strength) := by
  simp only [updateSignal, hp]
  by_cases hc : dictContains sg n
  · rw [if_pos hc]
    rw [dictGet_dictSet_self]
  · rw [if_neg hc]
    have hcn : dictGet sg n = none := by
      cases hcase : dictGet sg n with
      | none => rfl
      | some v => exact absurd (by simp [dictContains, hcase]) hc
    rw [dictGet_dictSet_self, dictGet_dictSet_self, hcn]
    rfl

theorem foldl_updateSignal_not_mem (cfg : EngineCfg) (succ : Bool)
    (ev : List (String × SigEv)) (sg : List (String × BetaNode)) (n : String)
    (h : n ∉ ev.map Prod.fst) :
    dictGet (ev.foldl (fun sg p => updateSignal cfg sg succ p.1 p.2) sg) n = dictGet sg n := by
  induction ev generalizing sg with
  | nil => rfl
  | cons hd tl ih =>
    obtain ⟨m, e⟩ := hd
    simp only [List.map_cons, List.mem_cons, not_or] at h
    rw [List.foldl_cons, ih _ h.2, updateSignal_get_ne _ _ _ _ _ _ (Ne.symm h.1)]

theorem foldl_updateSignal_mem (cfg : EngineCfg) (succ : Bool)
    (ev : List (String × SigEv)) (sg : List (String × BetaNode)) (n : String) (e : SigEv)
    (pres : Bool) (hnd : (ev.map Prod.fst).Nodup) (hmem : (n, e) ∈ ev)
    (hp : e.present = some pres) :
    dictGet (ev.foldl (fun sg p => updateSignal cfg sg succ p.1 p.2) sg) n
      = some (creditBeta ((dictGet sg n).getD ⟨cfg.defaultAlpha, cfg.defaultBeta⟩)
          pres succ e.strength) := by
  induction ev generalizing sg with
  | nil => cases hmem
  | cons hd tl ih =>
    obtain ⟨m, e'⟩ := hd
    simp only [List.map_cons, List.nodup_cons] at hnd
    rcases List.mem_cons.1 hmem with heq | htl
    · obtain ⟨rfl, rfl⟩ := Prod.mk.injEq .. ▸ heq
      rw [List.foldl_cons,
        foldl_updateSignal_not_mem _ _ _ _ _ hnd.1,
        updateSignal_get_self _ _ _ _ _ _ hp]
    · have hn_tl : n ∈ tl.map Prod.fst := List.mem_map.2 ⟨(n, e), htl, rfl⟩
      have hmn : m ≠ n := fun hh => hnd.1 (hh ▸ hn_tl)
      rw [List.foldl_cons, ih _ hnd.2 htl, updateSignal_get_ne _ _ _ _ _ _ hmn]

/-- C9: update_outcome with a trade id that has no pending decision returns
the state untouched (no Beta change, no persistence), and a second call with
the same trade id after any first call is always a no-op, because the first
call popped the bundle. -/
theorem claim_C9_update_outcome_idempotent_discard (cfg : EngineCfg) (es : EngineState)
    (tid : String) (pnl pnl' : ℚ) (hnd : (es.decisions.map Prod.fst).Nodup) :
    (dictGet es.decisions tid = none → updateOutcome cfg es tid pnl = es)
    ∧ updateOutcome cfg (updateOutcome cfg es tid pnl) tid pnl'
        = updateOutcome cfg es tid pnl := by
  have hnone : ∀ (st : EngineState) (q : ℚ), dictGet st.decisions tid = none →
      updateOutcome cfg st tid q = st := by
    intro st q h
    simp only [updateOutcome, h]
  refine ⟨hnone es pnl, ?_⟩
  cases hdec : dictGet es.decisions tid with
  | none =>
    rw [hnone es pnl hdec, hnone es pnl' hdec]
  | some dec =>
    have hss := dictGet_ensureSymbol_self cfg es.state dec.symbol
    have h1 : updateOutcome cfg es tid pnl
        = { state := dictSet (ensureSymbol cfg es.state dec.symbol) dec.symbol
              ⟨if decide (0 < pnl) then ⟨((dictGet es.state dec.symbol).getD
                    ⟨⟨cfg.basePriorAlpha, cfg.basePriorBeta⟩,
                     cfg.signals.map fun s => (s, ⟨cfg.defaultAlpha, cfg.defaultBeta⟩)⟩).prior.a + 1,
                  ((dictGet es.state dec.symbol).getD
                    ⟨⟨cfg.basePriorAlpha, cfg.basePriorBeta⟩,
                     cfg.signals.map fun s => (s, ⟨cfg.defaultAlpha, cfg.defaultBeta⟩)⟩).prior.b⟩
                else ⟨((dictGet es.state dec.symbol).getD
                    ⟨⟨cfg.basePriorAlpha, cfg.basePriorBeta⟩,
                     cfg.signals.map fun s => (s, ⟨cfg.defaultAlpha, cfg.defaultBeta⟩)⟩).prior.a,
                  ((dictGet es.state dec.symbol).getD
                    ⟨⟨cfg.basePriorAlpha, cfg.basePriorBeta⟩,
                     cfg.signals.map fun s => (s, ⟨cfg.defaultAlpha, cfg.defaultBeta⟩)⟩).prior.b + 1⟩,
                dec.evidence.foldl (fun sg p => updateSignal cfg sg (decide (0 < pnl)) p.1 p.2)
                  ((dictGet es.state dec.symbol).getD
                    ⟨⟨cfg.basePriorAlpha, cfg.basePriorBeta⟩,
                     cfg.signals.map fun s => (s, ⟨cfg.defaultAlpha, cfg.defaultBeta⟩)⟩).signals⟩,
            decisions := dictPop es.decisions tid,
            saves := es.saves + 1 } := by
      simp only [updateOutcome, hdec, hss]
    apply hnone
    rw [h1]
    exact dictGet_dictPop_self es.decisions tid hnd

/-- C9 witness: concrete no-op on an empty engine and concrete idempotent
discard after registering and closing one trade. -/
theorem claim_C9_witness :
    (dictGet (EngineState.mk [] [] 0).decisions "t1" = none →
      updateOutcome defaultCfg ⟨[], [], 0⟩ "t1" 1 = ⟨[], [], 0⟩)
    ∧ updateOutcome defaultCfg (updateOutcome defaultCfg ⟨[], [], 0⟩ "t1" 1) "t1" 2
        = updateOutcome defaultCfg ⟨[], [], 0⟩ "t1" 1 :=
  claim_C9_update_outcome_idempotent_discard defaultCfg ⟨[], [], 0⟩ "t1" 1 2 (by simp)

/-- C3: after register_decision and update_outcome, success (realized_pnl > 0)
adds exactly 1 to the symbol's prior `a` leaving `b` unchanged (and
symmetrically on failure), and every registered signal with present ≠ None is
moved by exactly its strength with the credit assignment of `creditBeta`:
agreeing signals credit `a` on success and `b` on failure, contradicting
signals credit the flipped side. -/
theorem claim_C3_register_then_update_outcome (cfg : EngineCfg) (es : EngineState)
    (tid sym dir : String) (ev : List (String × SigEv)) (pnl : ℚ)
    (pa pb : ℚ) (n : String) (e : SigEv) (pres : Bool)
    (hnd : (ev.map Prod.fst).Nodup)
    (hp : priorOf (registerDecision cfg es tid sym dir ev) sym = some ⟨pa, pb⟩)
    (hmem : (n, e) ∈ ev) (hpres : e.present = some pres) :
    priorOf (updateOutcome cfg (registerDecision cfg es tid sym dir ev) tid pnl) sym
      = some (if 0 < pnl then ⟨pa + 1, pb⟩ else ⟨pa, pb + 1⟩)
    ∧ signalOf (updateOutcome cfg (registerDecision cfg es tid sym dir ev) tid pnl) sym n
      = some (creditBeta
          ((signalOf (registerDecision cfg es tid sym dir ev) sym n).getD
            ⟨cfg.defaultAlpha, cfg.defaultBeta⟩)
          pres (decide (0 < pnl)) e.strength) := by
  have hdec : dictGet (registerDecision cfg es tid sym dir ev).decisions tid
      = some ⟨sym, pyLower dir, ev⟩ := by
    unfold registerDecision
    exact dictGet_dictSet_self _ _ _
  obtain ⟨ss1, hss1, hprior1⟩ : ∃ ss1,
      dictGet (registerDecision cfg es tid sym dir ev).state sym = some ss1
        ∧ ss1.prior = ⟨pa, pb⟩ := by
    unfold priorOf at hp
    rcases Option.map_eq_some'.1 hp with ⟨ss1, h1, h2⟩
    exact ⟨ss1, h1, h2⟩
  have hens : ensureSymbol cfg (registerDecision cfg es tid sym dir ev).state sym
      = (registerDecision cfg es tid sym dir ev).state := by
    unfold registerDecision
    exact ensureSymbol_idem cfg es.state sym
  have hupd : updateOutcome cfg (registerDecision cfg es tid sym dir ev) tid pnl
      = { state := dictSet (registerDecision cfg es tid sym dir ev).state sym
            ⟨if decide (0 < pnl) then ⟨ss1.prior.a + 1, ss1.prior.b⟩
              else ⟨ss1.prior.a, ss1.prior.b + 1⟩,
              ev.foldl (fun sg p => updateSignal cfg sg (decide (0 < pnl)) p.1 p.2) ss1.signals⟩,
          decisions := dictPop (registerDecision cfg es tid sym dir ev).decisions tid,
          saves := (registerDecision cfg es tid sym dir ev).saves + 1 } := by
    simp only [updateOutcome, hdec, hens, hss1]
  constructor
  · unfold priorOf
    rw [hupd]
    simp only [dictGet_dictSet_self, Option.map_some]
    rw [hprior1]
    by_cases hpnl : 0 < pnl
    · simp [hpnl]
    · simp [hpnl]
  · unfold signalOf
    rw [hupd]
    simp only [dictGet_dictSet_self, Option.some_bind]
    rw [foldl_updateSignal_mem cfg _ ev ss1.signals n e pres hnd hmem hpres, hss1]
    simp

/-- C3 witness: one registered buy decision on a fresh engine with a single
agreeing signal of strength 4/5, closed with realized pnl +1. -/
theorem claim_C3_witness :
    priorOf (updateOutcome defaultCfg
        (registerDecision defaultCfg ⟨[], [], 0⟩ "t1" "XAUUSD" "buy"
          [("kf_trend", ⟨some true, 4 / 5⟩)]) "t1" 1) "XAUUSD"
      = some (if (0 : ℚ) < 1 then ⟨50 + 1, 50⟩ else ⟨(50 : ℚ), 50 + 1⟩)
    ∧ signalOf (updateOutcome defaultCfg
        (registerDecision defaultCfg ⟨[], [], 0⟩ "t1" "XAUUSD" "buy"
          [("kf_trend", ⟨some true, 4 / 5⟩)]) "t1" 1) "XAUUSD" "kf_trend"
      = some (creditBeta
          ((signalOf (registerDecision defaultCfg ⟨[], [], 0⟩ "t1" "XAUUSD" "buy"
              [("kf_trend", ⟨some true, 4 / 5⟩)]) "XAUUSD" "kf_trend").getD ⟨50, 50⟩)
          true (decide ((0 : ℚ) < 1)) (4 / 5)) :=
  claim_C3_register_then_update_outcome defaultCfg ⟨[], [], 0⟩ "t1" "XAUUSD" "buy"
    [("kf_trend", ⟨some true, 4 / 5⟩)] 1 50 50 "kf_trend" ⟨some true, 4 / 5⟩ true
    (by simp) rfl (by simp) rfl

theorem computeConfidence_eq (cfg : EngineCfg) (es : EngineState)
    (symbol direction : String) (ev : List (String × SigEv))
    (hdir : pyLower direction = "buy" ∨ pyLower direction = "sell") :
    computeConfidence cfg es symbol direction ev
      = some ({ es with state := (dictSet (ensureSymbol cfg es.state symbol) symbol
                  (ccFoldResult cfg es symbol ev).1) },
              ⟨sigmoid (ccFoldResult cfg es symbol ev).2, (ccFoldResult cfg es symbol ev).2,
               ((ccPrior cfg es symbol : ℚ) : ℝ)⟩) := by
  unfold computeConfidence
  rw [if_pos hdir]

theorem ccStep_fst (cfg : EngineCfg) (acc : SymState × ℝ) (item : String × SigEv) :
    (ccStep cfg acc item).1
      = (if dictContains acc.1.signals item.1 then acc.1
         else { acc.1 with
                signals := dictSet acc.1.signals item.1 ⟨cfg.defaultAlpha, cfg.defaultBeta⟩ }) := by
  cases hp : item.2.present with
  | none => simp [ccStep, hp]
  | some pres => simp [ccStep, hp]

theorem ccStep_snd_of_none (cfg : EngineCfg) (acc : SymState × ℝ) (item : String × SigEv)
    (hp : item.2.present = none) : (ccStep cfg acc item).2 = acc.2 := by
  simp [ccStep, hp]

theorem ccFold_lo_of_none (cfg : EngineCfg) (ev : List (String × SigEv)) (ss : SymState)
    (lo : ℝ) (h : ∀ p ∈ ev, p.2.present = none) :
    (ev.foldl (ccStep cfg) (ss, lo)).2 = lo := by
  induction ev generalizing ss lo with
  | nil => rfl
  | cons hd tl ih =>
    rw [List.foldl_cons]
    have hhd : (ccStep cfg (ss, lo) hd).2 = lo := ccStep_snd_of_none _ _ _ (h hd (by simp))
    calc (List.foldl (ccStep cfg) (ccStep cfg (ss, lo) hd) tl).2
        = (List.foldl (ccStep cfg)
            ((ccStep cfg (ss, lo) hd).1, (ccStep cfg (ss, lo) hd).2) tl).2 := rfl
      _ = (ccStep cfg (ss, lo) hd).2 :=
          ih (ccStep cfg (ss, lo) hd).1 (ccStep cfg (ss, lo) hd).2
            (fun p hp => h p (by simp [hp]))
      _ = lo := hhd

theorem ccFold_prior (cfg : EngineCfg) (ev : List (String × SigEv)) (ss : SymState) (lo : ℝ) :
    ((ev.foldl (ccStep cfg) (ss, lo)).1).prior = ss.prior := by
  induction ev generalizing ss lo with
  | nil => rfl
  | cons hd tl ih =>
    rw [List.foldl_cons]
    have h1 : (ccStep cfg (ss, lo) hd).1.prior = ss.prior := by
      rw [ccStep_fst]
      split
      · rfl
      · rfl
    calc ((List.foldl (ccStep cfg) (ccStep cfg (ss, lo) hd) tl).1).prior
        = ((List.foldl (ccStep cfg)
            ((ccStep cfg (ss, lo) hd).1, (ccStep cfg (ss, lo) hd).2) tl).1).prior := rfl
      _ = (ccStep cfg (ss, lo) hd).1.prior :=
          ih (ccStep cfg (ss, lo) hd).1 (ccStep cfg (ss, lo) hd).2
      _ = ss.prior := h1

theorem ccStep_signals (cfg : EngineCfg) (acc : SymState × ℝ) (item : String × SigEv)
    (g : String) :
    dictGet (ccStep cfg acc item).1.signals g = dictGet acc.1.signals g
    ∨ (dictGet acc.1.signals g = none
        ∧ dictGet (ccStep cfg acc item).1.signals g
            = some ⟨cfg.defaultAlpha, cfg.defaultBeta⟩) := by
  rw [ccStep_fst]
  by_cases hc : dictContains acc.1.signals item.1
  · rw [if_pos hc]
    exact Or.inl rfl
  · rw [if_neg hc]
    by_cases hg : item.1 = g
    · subst hg
      have hcn : dictGet acc.1.signals item.1 = none := by
        cases hcase : dictGet acc.1.signals item.1 with
        | none => rfl
        | some v => exact absurd (by simp [dictContains, hcase]) hc
      exact Or.inr ⟨hcn, by simp [dictGet_dictSet_self]⟩
    · exact Or.inl (dictGet_dictSet_ne _ _ _ _ hg)

theorem ccFold_signals (cfg : EngineCfg) (ev : List (String × SigEv)) (ss : SymState)
    (lo : ℝ) (g : String) :
    dictGet ((ev.foldl (ccStep cfg) (ss, lo)).1).signals g = dictGet ss.signals g
    ∨ (dictGet ss.signals g = none
        ∧ dictGet ((ev.foldl (ccStep cfg) (ss, lo)).1).signals g
            = some ⟨cfg.defaultAlpha, cfg.defaultBeta⟩) := by
  induction ev generalizing ss lo with
  | nil => exact Or.inl rfl
  | cons hd tl ih =>
    rw [List.foldl_cons]
    have hstep := ccStep_signals cfg (ss, lo) hd g
    have hih := ih (ccStep cfg (ss, lo) hd).1 (ccStep cfg (ss, lo) hd).2
    rw [show ((ccStep cfg (ss, lo) hd).1, (ccStep cfg (ss, lo) hd).2)
        = ccStep cfg (ss, lo) hd from rfl] at hih
    rcases hih with hih | ⟨hih1, hih2⟩
    · rcases hstep with hstep | ⟨hstep1, hstep2⟩
      · exact Or.inl (hih.trans hstep)
      · exact Or.inr ⟨hstep1, hih.trans hstep2⟩
    · rcases hstep with hstep | ⟨hstep1, hstep2⟩
      · exact Or.inr ⟨hstep ▸ hih1, hih2⟩
      · exact Or.inr ⟨hstep1, hih2⟩

theorem dictGet_const_map (sigs : List String) (d : BetaNode) (g : String) :
    dictGet (sigs.map fun s => (s, d)) g = none
    ∨ dictGet (sigs.map fun s => (s, d)) g = some d := by
  induction sigs with
  | nil => exact Or.inl rfl
  | cons hd tl ih =>
    by_cases h : hd = g
    · exact Or.inr (by simp [dictGet_cons, h])
    · simpa [dictGet_cons, h] using ih

theorem sigmoid_logit_self (p : ℝ) (h1 : EPS ≤ p) (h2 : p ≤ 1 - EPS) :
    sigmoid (logit p) = p := by
  have hp0 : (0 : ℝ) < p := lt_of_lt_of_le (by norm_num [EPS]) h1
  have hp1 : p < 1 := lt_of_le_of_lt h2 (by norm_num [EPS])
  have h1p : (0 : ℝ) < 1 - p := by linarith
  have hfrac : (0 : ℝ) < p / (1 - p) := div_pos hp0 h1p
  have hne : p ≠ 0 := ne_of_gt hp0
  have h1pne : (1 : ℝ) - p ≠ 0 := ne_of_gt h1p
  have hlogit : logit p = Real.log (p / (1 - p)) := by
    simp only [logit]
    rw [clip01_eq_self p h1 h2]
  rw [hlogit]
  unfold sigmoid
  split
  · rw [Real.exp_neg, Real.exp_log hfrac, inv_div,
      show (1 : ℝ) + (1 - p) / p = 1 / p from by field_simp, one_div_one_div]
  · rw [Real.exp_log hfrac,
      show (1 : ℝ) + p / (1 - p) = 1 / (1 - p) from by field_simp]
    field_simp

theorem sigmoid_lt_half (x : ℝ) (hx : x < 0) : sigmoid x < 1 / 2 := by
  unfold sigmoid
  rw [if_neg (not_le.2 hx)]
  have he : Real.exp x < 1 := Real.exp_lt_one_iff.2 hx
  have hpos : (0 : ℝ) < 1 + Real.exp x := by positivity
  rw [div_lt_iff hpos]
  nlinarith [Real.exp_pos x]

theorem clip01_cast_le (x : ℚ) :
    EPS ≤ ((clip01 x : ℚ) : ℝ) ∧ ((clip01 x : ℚ) : ℝ) ≤ 1 - EPS := by
  have h := clip01_le x
  constructor
  · have hc : ((EPS : ℚ) : ℝ) ≤ ((clip01 x : ℚ) : ℝ) := Rat.cast_le.2 h.1
    have he : ((EPS : ℚ) : ℝ) = EPS := by
      norm_num [EPS]
    rw [he] at hc
    exact hc
  · have hc : ((clip01 x : ℚ) : ℝ) ≤ ((1 - EPS : ℚ) : ℝ) := Rat.cast_le.2 h.2
    have he : ((1 - EPS : ℚ) : ℝ) = 1 - EPS := by
      norm_num [EPS]
    rw [he] at hc
    exact hc

theorem clip01_betaMean_5050 : clip01 (betaMean (50 : ℚ) 50) = 1 / 2 := by
  have hbm : betaMean (50 : ℚ) 50 = 1 / 2 := by
    unfold betaMean
    rw [max_eq_left (by norm_num [EPS])]
    norm_num
  rw [hbm]
  exact clip01_eq_self _ (by norm_num [EPS]) (by norm_num [EPS])

theorem logit_cast_half : logit (((1 / 2 : ℚ) : ℝ)) = 0 := by
  simp only [logit]
  rw [clip01_eq_self _ (by push_cast; norm_num [EPS]) (by push_cast; norm_num [EPS]),
    show ((1 / 2 : ℚ) : ℝ) / (1 - ((1 / 2 : ℚ) : ℝ)) = 1 from by push_cast; norm_num]
  exact Real.log_one

theorem lr_cast_half_neg :
    Real.log (((1 / 2 : ℚ) : ℝ) / (1 - ((1 / 2 : ℚ) : ℝ) + EPS) + EPS) < 0 := by
  have harg1 : (0 : ℝ) < ((1 / 2 : ℚ) : ℝ) / (1 - ((1 / 2 : ℚ) : ℝ) + EPS) + EPS := by
    push_cast
    norm_num [EPS]
  have harg2 : ((1 / 2 : ℚ) : ℝ) / (1 - ((1 / 2 : ℚ) : ℝ) + EPS) + EPS < 1 := by
    push_cast
    norm_num [EPS]
  exact Real.log_neg harg1 harg2

/-- C1: when every evidence item has present = None, compute_confidence
returns confidence = sigmoid(logit(prior)), which is exactly the returned
prior probability read from the symbol's base Beta posterior: no signal
contributes anything to the log-odds. -/
theorem claim_C1_no_evidence_confidence_is_prior (cfg : EngineCfg) (es : EngineState)
    (symbol direction : String) (ev : List (String × SigEv)) (es' : EngineState) (out : CCOut)
    (h : computeConfidence cfg es symbol direction ev = some (es', out))
    (hev : ∀ p ∈ ev, p.2.present = none) :
    out.confidence = sigmoid (logit out.prior) ∧ out.confidence = out.prior := by
  by_cases hdir : pyLower direction = "buy" ∨ pyLower direction = "sell"
  · rw [computeConfidence_eq cfg es symbol direction ev hdir, Option.some.injEq,
      Prod.mk.injEq] at h
    obtain ⟨hes, hout⟩ := h
    have hlo : (ccFoldResult cfg es symbol ev).2 = logit ((ccPrior cfg es symbol : ℚ) : ℝ) :=
      ccFold_lo_of_none cfg ev _ _ hev
    rw [← hout]
    constructor
    · show sigmoid (ccFoldResult cfg es symbol ev).2
        = sigmoid (logit ((ccPrior cfg es symbol : ℚ) : ℝ))
      rw [hlo]
    · show sigmoid (ccFoldResult cfg es symbol ev).2 = ((ccPrior cfg es symbol : ℚ) : ℝ)
      rw [hlo]
      exact sigmoid_logit_self _ (clip01_cast_le _).1 (clip01_cast_le _).2
  · unfold computeConfidence at h
    rw [if_neg hdir] at h
    exact absurd h (by simp)

/-- C1 witness: a fresh engine, direction "buy", one evidence item with
present = None. -/
theorem claim_C1_witness :
    (((computeConfidence defaultCfg ⟨[], [], 0⟩ "XAUUSD" "buy"
        [("kf_trend", ⟨none, 0⟩)]).getD (⟨[], [], 0⟩, ⟨0, 0, 0⟩)).2).confidence
      = sigmoid (logit (((computeConfidence defaultCfg ⟨[], [], 0⟩ "XAUUSD" "buy"
        [("kf_trend", ⟨none, 0⟩)]).getD (⟨[], [], 0⟩, ⟨0, 0, 0⟩)).2).prior)
    ∧ (((computeConfidence defaultCfg ⟨[], [], 0⟩ "XAUUSD" "buy"
        [("kf_trend", ⟨none, 0⟩)]).getD (⟨[], [], 0⟩, ⟨0, 0, 0⟩)).2).confidence
      = (((computeConfidence defaultCfg ⟨[], [], 0⟩ "XAUUSD" "buy"
        [("kf_trend", ⟨none, 0⟩)]).getD (⟨[], [], 0⟩, ⟨0, 0, 0⟩)).2).prior :=
  claim_C1_no_evidence_confidence_is_prior defaultCfg ⟨[], [], 0⟩ "XAUUSD" "buy"
    [("kf_trend", ⟨none, 0⟩)]
    ((computeConfidence defaultCfg ⟨[], [], 0⟩ "XAUUSD" "buy"
        [("kf_trend", ⟨none, 0⟩)]).getD (⟨[], [], 0⟩, ⟨0, 0, 0⟩)).1
    ((computeConfidence defaultCfg ⟨[], [], 0⟩ "XAUUSD" "buy"
        [("kf_trend", ⟨none, 0⟩)]).getD (⟨[], [], 0⟩, ⟨0, 0, 0⟩)).2
    rfl (by decide)

theorem ccStep_allDefault (acc : SymState × ℝ) (item : String × SigEv)
    (hall : allDefault acc.1) : allDefault (ccStep defaultCfg acc item).1 := by
  intro g nd hg
  rw [ccStep_fst] at hg
  by_cases hc : dictContains acc.1.signals item.1
  · rw [if_pos hc] at hg
    exact hall g nd hg
  · rw [if_neg hc] at hg
    simp only at hg
    by_cases hgi : item.1 = g
    · subst hgi
      rw [dictGet_dictSet_self] at hg
      exact (Option.some.inj hg).symm
    · rw [dictGet_dictSet_ne _ _ _ _ hgi] at hg
      exact hall g nd hg

theorem ccStep_snd_lt (acc : SymState × ℝ) (item : String × SigEv)
    (hall : allDefault acc.1) (hp : item.2.present = some true)
    (hs : 0 < item.2.strength) : (ccStep defaultCfg acc item).2 < acc.2 := by
  have hnd : (dictGet (if dictContains acc.1.signals item.1 then acc.1
      else { acc.1 with signals := (dictSet acc.1.signals item.1
              (⟨defaultCfg.defaultAlpha, defaultCfg.defaultBeta⟩ : BetaNode)) }).signals item.1).getD
      ⟨defaultCfg.defaultAlpha, defaultCfg.defaultBeta⟩ = ⟨50, 50⟩ := by
    by_cases hc : dictContains acc.1.signals item.1
    · rw [if_pos hc]
      cases hcase : dictGet acc.1.signals item.1 with
      | none => rfl
      | some v => simpa using hall item.1 v hcase
    · rw [if_neg hc]
      simp only
      rw [dictGet_dictSet_self]
      rfl
  simp only [ccStep, hp, hnd, if_true]
  have hlr : Real.log ((((1 : ℚ) / 2 : ℚ) : ℝ)
      / (1 - (((1 : ℚ) / 2 : ℚ) : ℝ) + EPS) + EPS) < 0 := lr_cast_half_neg
  have hcast : ((clip01 (betaMean (BetaNode.a ⟨50, 50⟩) (BetaNode.b ⟨50, 50⟩)) : ℚ) : ℝ)
      = (((1 : ℚ) / 2 : ℚ) : ℝ) := by
    rw [clip01_betaMean_5050]
  rw [hcast]
  have hspos : (0 : ℝ) < (item.2.strength : ℝ) := by
    exact_mod_cast hs
  nlinarith [mul_neg_of_pos_of_neg hspos hlr]

theorem ccFold_lo_le (ev : List (String × SigEv)) (ss : SymState) (lo : ℝ)
    (hall : allDefault ss)
    (hev : ∀ p ∈ ev, p.2.present = some true ∧ 0 < p.2.strength) :
    (ev.foldl (ccStep defaultCfg) (ss, lo)).2 ≤ lo := by
  induction ev generalizing ss lo with
  | nil => exact le_refl lo
  | cons hd tl ih =>
    rw [List.foldl_cons]
    have hhd := hev hd (by simp)
    have hstep : (ccStep defaultCfg (ss, lo) hd).2 < lo :=
      ccStep_snd_lt (ss, lo) hd hall hhd.1 hhd.2
    have hall' : allDefault (ccStep defaultCfg (ss, lo) hd).1 :=
      ccStep_allDefault (ss, lo) hd hall
    calc (List.foldl (ccStep defaultCfg) (ccStep defaultCfg (ss, lo) hd) tl).2
        = (List.foldl (ccStep defaultCfg)
            ((ccStep defaultCfg (ss, lo) hd).1, (ccStep defaultCfg (ss, lo) hd).2) tl).2 := rfl
      _ ≤ (ccStep defaultCfg (ss, lo) hd).2 :=
          ih _ _ hall' (fun p hp => hev p (by simp [hp]))
      _ ≤ lo := le_of_lt hstep

theorem ccFold_lo_lt (ev : List (String × SigEv)) (ss : SymState) (lo : ℝ)
    (hall : allDefault ss)
    (hev : ∀ p ∈ ev, p.2.present = some true ∧ 0 < p.2.strength) (hne : ev ≠ []) :
    (ev.foldl (ccStep defaultCfg) (ss, lo)).2 < lo := by
  cases ev with
  | nil => exact absurd rfl hne
  | cons hd tl =>
    rw [List.foldl_cons]
    have hhd := hev (by exact hd) (by simp)
    have hstep : (ccStep defaultCfg (ss, lo) hd).2 < lo :=
      ccStep_snd_lt (ss, lo) hd hall hhd.1 hhd.2
    have hall' : allDefault (ccStep defaultCfg (ss, lo) hd).1 :=
      ccStep_allDefault (ss, lo) hd hall
    calc (List.foldl (ccStep defaultCfg) (ccStep defaultCfg (ss, lo) hd) tl).2
        = (List.foldl (ccStep defaultCfg)
            ((ccStep defaultCfg (ss, lo) hd).1, (ccStep defaultCfg (ss, lo) hd).2) tl).2 := rfl
      _ ≤ (ccStep defaultCfg (ss, lo) hd).2 :=
          ccFold_lo_le tl _ _ hall' (fun p hp => hev p (by simp [hp]))
      _ < lo := hstep

theorem ccInit_of_none (cfg : EngineCfg) (es : EngineState) (symbol : String)
    (hsym : dictGet es.state symbol = none) :
    ccInit cfg es symbol
      = ⟨⟨cfg.basePriorAlpha, cfg.basePriorBeta⟩,
         cfg.signals.map fun s => (s, ⟨cfg.defaultAlpha, cfg.defaultBeta⟩)⟩ := by
  unfold ccInit
  rw [dictGet_ensureSymbol_self, hsym]
  rfl

theorem ccPrior_of_none (es : EngineState) (symbol : String)
    (hsym : dictGet es.state symbol = none) :
    ccPrior defaultCfg es symbol = 1 / 2 := by
  unfold ccPrior
  rw [ccInit_of_none _ _ _ hsym]
  exact clip01_betaMean_5050

theorem allDefault_ccInit_of_none (es : EngineState) (symbol : String)
    (hsym : dictGet es.state symbol = none) :
    allDefault (ccInit defaultCfg es symbol) := by
  rw [ccInit_of_none _ _ _ hsym]
  intro g nd hg
  rcases dictGet_const_map defaultCfg.signals
      ⟨defaultCfg.defaultAlpha, defaultCfg.defaultBeta⟩ g with hnone | hsome
  · rw [hnone] at hg
    exact Option.noConfusion hg
  · rw [hsome] at hg
    exact (Option.some.inj hg).symm

theorem cc_default_log_odds_neg (es : EngineState) (symbol : String)
    (ev : List (String × SigEv)) (hsym : dictGet es.state symbol = none)
    (hev : ∀ p ∈ ev, p.2.present = some true ∧ 0 < p.2.strength) (hne : ev ≠ []) :
    (ccFoldResult defaultCfg es symbol ev).2 < 0 := by
  unfold ccFoldResult
  rw [ccPrior_of_none es symbol hsym, logit_cast_half]
  exact ccFold_lo_lt ev _ 0 (allDefault_ccInit_of_none es symbol hsym) hev hne

/-- C2 (amended): for a fresh symbol (all posteriors at the default
Beta(50,50)) and a nonempty evidence map whose items all have present = True
with positive strengths, compute_confidence reports prior exactly 1/2 but a
strictly NEGATIVE log-odds and a confidence strictly BELOW 1/2: each signal's
likelihood ratio is log(0.5/(0.5+1e-12)+1e-12) < 0 because of the epsilon
regularizers, not exactly 0 as the claim states. -/
theorem claim_C2_default_posteriors_confidence_below_half (es : EngineState)
    (symbol direction : String) (ev : List (String × SigEv)) (es' : EngineState)
    (out : CCOut) (hsym : dictGet es.state symbol = none) (hne : ev ≠ [])
    (hev : ∀ p ∈ ev, p.2.present = some true ∧ 0 < p.2.strength)
    (h : computeConfidence defaultCfg es symbol direction ev = some (es', out)) :
    out.prior = ((1 / 2 : ℚ) : ℝ) ∧ out.log_odds < 0 ∧ out.confidence < 1 / 2 := by
  by_cases hdir : pyLower direction = "buy" ∨ pyLower direction = "sell"
  · rw [computeConfidence_eq defaultCfg es symbol direction ev hdir, Option.some.injEq,
      Prod.mk.injEq] at h
    obtain ⟨hes, hout⟩ := h
    rw [← hout]
    have hneg : (ccFoldResult defaultCfg es symbol ev).2 < 0 :=
      cc_default_log_odds_neg es symbol ev hsym hev hne
    refine ⟨?_, hneg, sigmoid_lt_half _ hneg⟩
    show ((ccPrior defaultCfg es symbol : ℚ) : ℝ) = ((1 / 2 : ℚ) : ℝ)
    rw [ccPrior_of_none es symbol hsym]
  · unfold computeConfidence at h
    rw [if_neg hdir] at h
    exact absurd h (by simp)

/-- C2 counterexample: on a fresh engine with one present=True strength-1
signal, compute_confidence does NOT return confidence exactly 1/2. -/
theorem claim_C2_counterexample :
    (computeConfidence defaultCfg ⟨[], [], 0⟩ "XAUUSD" "buy"
        [("kf_trend", ⟨some true, 1⟩)]).map (fun r => r.2.confidence)
      ≠ some ((1 : ℝ) / 2) := by
  intro hmap
  rw [computeConfidence_eq defaultCfg ⟨[], [], 0⟩ "XAUUSD" "buy"
      [("kf_trend", ⟨some true, 1⟩)] (Or.inl rfl)] at hmap
  simp only [Option.map_some', Option.some.injEq] at hmap
  have hneg : (ccFoldResult defaultCfg ⟨[], [], 0⟩ "XAUUSD"
      [("kf_trend", ⟨some true, 1⟩)]).2 < 0 :=
    cc_default_log_odds_neg ⟨[], [], 0⟩ "XAUUSD" [("kf_trend", ⟨some true, 1⟩)] rfl
      (fun p hp => by
        simp only [List.mem_singleton] at hp
        subst hp
        exact ⟨rfl, by norm_num⟩)
      (by simp)
  have hlt := sigmoid_lt_half _ hneg
  rw [hmap] at hlt
  exact lt_irrefl _ hlt

/-- C2 witness: concrete instance of the amended theorem on a fresh engine
with one present=True evidence item of strength 1. -/
theorem claim_C2_witness :
    (((computeConfidence defaultCfg ⟨[], [], 0⟩ "XAUUSD" "buy"
        [("kf_trend", ⟨some true, 1⟩)]).getD (⟨[], [], 0⟩, ⟨0, 0, 0⟩)).2).prior
      = ((1 / 2 : ℚ) : ℝ)
    ∧ (((computeConfidence defaultCfg ⟨[], [], 0⟩ "XAUUSD" "buy"
        [("kf_trend", ⟨some true, 1⟩)]).getD (⟨[], [], 0⟩, ⟨0, 0, 0⟩)).2).log_odds < 0
    ∧ (((computeConfidence defaultCfg ⟨[], [], 0⟩ "XAUUSD" "buy"
        [("kf_trend", ⟨some true, 1⟩)]).getD (⟨[], [], 0⟩, ⟨0, 0, 0⟩)).2).confidence
      < 1 / 2 :=
  claim_C2_default_posteriors_confidence_below_half ⟨[], [], 0⟩ "XAUUSD" "buy"
    [("kf_trend", ⟨some true, 1⟩)]
    ((computeConfidence defaultCfg ⟨[], [], 0⟩ "XAUUSD" "buy"
        [("kf_trend", ⟨some true, 1⟩)]).getD (⟨[], [], 0⟩, ⟨0, 0, 0⟩)).1
    ((computeConfidence defaultCfg ⟨[], [], 0⟩ "XAUUSD" "buy"
        [("kf_trend", ⟨some true, 1⟩)]).getD (⟨[], [], 0⟩, ⟨0, 0, 0⟩)).2
    rfl (by simp)
    (fun p hp => by
      simp only [List.mem_singleton] at hp
      subst hp
      exact ⟨rfl, by norm_num⟩)
    rfl

theorem ccInit_of_some (cfg : EngineCfg) (es : EngineState) (symbol : String)
    (ss : SymState) (hsym : dictGet es.state symbol = some ss) :
    ccInit cfg es symbol = ss := by
  unfold ccInit
  rw [dictGet_ensureSymbol_self, hsym]
  rfl

/-- C10: compute_confidence never changes learned values: the decisions map
and the persistence counter are untouched, other symbols' entries are
untouched, the target symbol's prior is preserved (or freshly defaulted when
the symbol was unseen), and any signal entry is either preserved exactly or
freshly inserted at the default Beta. -/
theorem claim_C10_compute_confidence_frame (cfg : EngineCfg) (es : EngineState)
    (symbol direction : String) (ev : List (String × SigEv)) (es' : EngineState)
    (out : CCOut) (s' g : String)
    (h : computeConfidence cfg es symbol direction ev = some (es', out))
    (hs' : s' ≠ symbol) :
    es'.decisions = es.decisions
    ∧ es'.saves = es.saves
    ∧ dictGet es'.state s' = dictGet es.state s'
    ∧ priorOf es' symbol
        = (if dictContains es.state symbol then priorOf es symbol
           else some ⟨cfg.basePriorAlpha, cfg.basePriorBeta⟩)
    ∧ (signalOf es' symbol g = signalOf es symbol g
        ∨ (signalOf es symbol g = none
            ∧ signalOf es' symbol g = some ⟨cfg.defaultAlpha, cfg.defaultBeta⟩)) := by
  by_cases hdir : pyLower direction = "buy" ∨ pyLower direction = "sell"
  case neg =>
    unfold computeConfidence at h
    rw [if_neg hdir] at h
    exact absurd h (by simp)
  case pos =>
  rw [computeConfidence_eq cfg es symbol direction ev hdir, Option.some.injEq,
    Prod.mk.injEq] at h
  obtain ⟨hes, hout⟩ := h
  rw [← hes]
  have hget : dictGet (dictSet (ensureSymbol cfg es.state symbol) symbol
      (ccFoldResult cfg es symbol ev).1) symbol = some (ccFoldResult cfg es symbol ev).1 :=
    dictGet_dictSet_self _ _ _
  have hfold_prior : (ccFoldResult cfg es symbol ev).1.prior = (ccInit cfg es symbol).prior :=
    ccFold_prior cfg ev _ _
  have hfold_sigs := ccFold_signals cfg ev (ccInit cfg es symbol)
    (logit ((ccPrior cfg es symbol : ℚ) : ℝ)) g
  refine ⟨rfl, rfl, ?_, ?_, ?_⟩
  · show dictGet (dictSet (ensureSymbol cfg es.state symbol) symbol
        (ccFoldResult cfg es symbol ev).1) s' = dictGet es.state s'
    rw [dictGet_dictSet_ne _ _ _ _ (Ne.symm hs'), dictGet_ensureSymbol_ne _ _ _ _ (Ne.symm hs')]
  · show ((dictGet (dictSet (ensureSymbol cfg es.state symbol) symbol
        (ccFoldResult cfg es symbol ev).1) symbol).map fun ss => ss.prior) = _
    rw [hget]
    cases hsym : dictGet es.state symbol with
    | none =>
      have hcf : dictContains es.state symbol = false := by simp [dictContains, hsym]
      rw [hcf]
      simp only [Option.map_some', Bool.false_eq_true, if_false]
      rw [hfold_prior, ccInit_of_none cfg es symbol hsym]
    | some ss0 =>
      have hct : dictContains es.state symbol = true := by simp [dictContains, hsym]
      rw [hct]
      simp only [Option.map_some', if_true]
      rw [hfold_prior, ccInit_of_some cfg es symbol ss0 hsym]
      unfold priorOf
      rw [hsym]
      simp only [Option.map_some']
  · have hso : signalOf
        { es with state := (dictSet (ensureSymbol cfg es.state symbol) symbol
            (ccFoldResult cfg es symbol ev).1) } symbol g
        = dictGet ((ccFoldResult cfg es symbol ev).1).signals g := by
      unfold signalOf
      dsimp only
      rw [hget]
      rfl
    have hfs : dictGet ((ccFoldResult cfg es symbol ev).1).signals g
        = dictGet (ccInit cfg es symbol).signals g
        ∨ (dictGet (ccInit cfg es symbol).signals g = none
            ∧ dictGet ((ccFoldResult cfg es symbol ev).1).signals g
                = some ⟨cfg.defaultAlpha, cfg.defaultBeta⟩) := hfold_sigs
    rw [hso]
    cases hsym : dictGet es.state symbol with
    | some ss0 =>
      have hinit : ccInit cfg es symbol = ss0 := ccInit_of_some cfg es symbol ss0 hsym
      rw [hinit] at hfs
      have hsig_es : signalOf es symbol g = dictGet ss0.signals g := by
        unfold signalOf
        rw [hsym]
        rfl
      rcases hfs with heq | ⟨hnone, hdef⟩
      · exact Or.inl (by rw [heq, hsig_es])
      · exact Or.inr ⟨by rw [hsig_es, hnone], by rw [hdef]⟩
    | none =>
      have hsig_es : signalOf es symbol g = none := by
        unfold signalOf
        rw [hsym]
        rfl
      have hcm : dictGet (ccInit cfg es symbol).signals g = none
          ∨ dictGet (ccInit cfg es symbol).signals g
              = some ⟨cfg.defaultAlpha, cfg.defaultBeta⟩ := by
        rw [ccInit_of_none cfg es symbol hsym]
        exact dictGet_const_map cfg.signals _ g
      rcases hfs with heq | ⟨hnone, hdef⟩
      · rcases hcm with hcm | hcm
        · exact Or.inl (by rw [heq, hcm, hsig_es])
        · exact Or.inr ⟨hsig_es, by rw [heq, hcm]⟩
      · exact Or.inr ⟨hsig_es, by rw [hdef]⟩

/-- C10 witness: a concrete engine with existing learned state, an evidence
map introducing a new signal, and a different symbol and an existing signal
to check the frame conditions on. -/
theorem claim_C10_witness :
    ((computeConfidence defaultCfg
        ⟨[("XAUUSD", ⟨⟨60, 40⟩, [("kf_trend", ⟨70, 30⟩)]⟩)],
         [("t0", ⟨"XAUUSD", "buy", []⟩)], 3⟩ "XAUUSD" "buy"
        [("newsig", ⟨some true, 1⟩)]).getD (⟨[], [], 0⟩, ⟨0, 0, 0⟩)).1.decisions
      = (EngineState.mk [("XAUUSD", ⟨⟨60, 40⟩, [("kf_trend", ⟨70, 30⟩)]⟩)]
         [("t0", ⟨"XAUUSD", "buy", []⟩)] 3).decisions
    ∧ ((computeConfidence defaultCfg
        ⟨[("XAUUSD", ⟨⟨60, 40⟩, [("kf_trend", ⟨70, 30⟩)]⟩)],
         [("t0", ⟨"XAUUSD", "buy", []⟩)], 3⟩ "XAUUSD" "buy"
        [("newsig", ⟨some true, 1⟩)]).getD (⟨[], [], 0⟩, ⟨0, 0, 0⟩)).1.saves
      = (EngineState.mk [("XAUUSD", ⟨⟨60, 40⟩, [("kf_trend", ⟨70, 30⟩)]⟩)]
         [("t0", ⟨"XAUUSD", "buy", []⟩)] 3).saves
    ∧ dictGet ((computeConfidence defaultCfg
        ⟨[("XAUUSD", ⟨⟨60, 40⟩, [("kf_trend", ⟨70, 30⟩)]⟩)],
         [("t0", ⟨"XAUUSD", "buy", []⟩)], 3⟩ "XAUUSD" "buy"
        [("newsig", ⟨some true, 1⟩)]).getD (⟨[], [], 0⟩, ⟨0, 0, 0⟩)).1.state "EURUSD"
      = dictGet (EngineState.mk [("XAUUSD", ⟨⟨60, 40⟩, [("kf_trend", ⟨70, 30⟩)]⟩)]
         [("t0", ⟨"XAUUSD", "buy", []⟩)] 3).state "EURUSD"
    ∧ priorOf ((computeConfidence defaultCfg
        ⟨[("XAUUSD", ⟨⟨60, 40⟩, [("kf_trend", ⟨70, 30⟩)]⟩)],
         [("t0", ⟨"XAUUSD", "buy", []⟩)], 3⟩ "XAUUSD" "buy"
        [("newsig", ⟨some true, 1⟩)]).getD (⟨[], [], 0⟩, ⟨0, 0, 0⟩)).1 "XAUUSD"
      = (if dictContains (EngineState.mk [("XAUUSD", ⟨⟨60, 40⟩, [("kf_trend", ⟨70, 30⟩)]⟩)]
            [("t0", ⟨"XAUUSD", "buy", []⟩)] 3).state "XAUUSD"
          then priorOf (EngineState.mk [("XAUUSD", ⟨⟨60, 40⟩, [("kf_trend", ⟨70, 30⟩)]⟩)]
            [("t0", ⟨"XAUUSD", "buy", []⟩)] 3) "XAUUSD"
          else some ⟨defaultCfg.basePriorAlpha, defaultCfg.basePriorBeta⟩)
    ∧ (signalOf ((computeConfidence defaultCfg
        ⟨[("XAUUSD", ⟨⟨60, 40⟩, [("kf_trend", ⟨70, 30⟩)]⟩)],
         [("t0", ⟨"XAUUSD", "buy", []⟩)], 3⟩ "XAUUSD" "buy"
        [("newsig", ⟨some true, 1⟩)]).getD (⟨[], [], 0⟩, ⟨0, 0, 0⟩)).1 "XAUUSD" "kf_trend"
        = signalOf (EngineState.mk [("XAUUSD", ⟨⟨60, 40⟩, [("kf_trend", ⟨70, 30⟩)]⟩)]
            [("t0", ⟨"XAUUSD", "buy", []⟩)] 3) "XAUUSD" "kf_trend"
      ∨ (signalOf (EngineState.mk [("XAUUSD", ⟨⟨60, 40⟩, [("kf_trend", ⟨70, 30⟩)]⟩)]
            [("t0", ⟨"XAUUSD", "buy", []⟩)] 3) "XAUUSD" "kf_trend" = none
          ∧ signalOf ((computeConfidence defaultCfg
              ⟨[("XAUUSD", ⟨⟨60, 40⟩, [("kf_trend", ⟨70, 30⟩)]⟩)],
               [("t0", ⟨"XAUUSD", "buy", []⟩)], 3⟩ "XAUUSD" "buy"
              [("newsig", ⟨some true, 1⟩)]).getD (⟨[], [], 0⟩, ⟨0, 0, 0⟩)).1 "XAUUSD" "kf_trend"
            = some ⟨defaultCfg.defaultAlpha, defaultCfg.defaultBeta⟩)) :=
  claim_C10_compute_confidence_frame defaultCfg
    ⟨[("XAUUSD", ⟨⟨60, 40⟩, [("kf_trend", ⟨70, 30⟩)]⟩)],
     [("t0", ⟨"XAUUSD", "buy", []⟩)], 3⟩ "XAUUSD" "buy"
    [("newsig", ⟨some true, 1⟩)]
    ((computeConfidence defaultCfg
        ⟨[("XAUUSD", ⟨⟨60, 40⟩, [("kf_trend", ⟨70, 30⟩)]⟩)],
         [("t0", ⟨"XAUUSD", "buy", []⟩)], 3⟩ "XAUUSD" "buy"
        [("newsig", ⟨some true, 1⟩)]).getD (⟨[], [], 0⟩, ⟨0, 0, 0⟩)).1
    ((computeConfidence defaultCfg
        ⟨[("XAUUSD", ⟨⟨60, 40⟩, [("kf_trend", ⟨70, 30⟩)]⟩)],
         [("t0", ⟨"XAUUSD", "buy", []⟩)], 3⟩ "XAUUSD" "buy"
        [("newsig", ⟨some true, 1⟩)]).getD (⟨[], [], 0⟩, ⟨0, 0, 0⟩)).2
    "EURUSD" "kf_trend" rfl (by decide)

theorem foldl_dictSet_fresh (f : String → ℝ) (names : List String)
    (acc : List (String × ℝ)) (hnd : names.Nodup)
    (hfresh : ∀ k ∈ names, dictGet acc k = none) :
    names.foldl (fun acc sig => dictSet acc sig (f sig)) acc
      = acc ++ names.map (fun sig => (sig, f sig)) := by
  induction names generalizing acc with
  | nil => simp
  | cons hd tl ih =>
    simp only [List.nodup_cons] at hnd
    rw [List.foldl_cons, dictSet_of_get_none _ _ _ (hfresh hd (by simp))]
    rw [ih _ hnd.2]
    · simp
    · intro k hk
      have hkne : hd ≠ k := fun he => hnd.1 (he ▸ hk)
      rw [dictGet_append_of_none _ _ _ (hfresh k (by simp [hk]))]
      simp [dictGet_cons, hkne]

theorem dwZ_go (symbol regime : String) (vol minW : ℚ) (names : List String)
    (dw : DWState) (acc : List (String × ℝ)) (hnd : names.Nodup)
    (hfresh : ∀ k ∈ names, dictGet acc k = none) :
    ∃ zs : List (String × ℝ),
      (names.foldl (dwZStep symbol regime vol minW) (dw, acc)).2 = acc ++ zs
      ∧ zs.map Prod.fst = names
      ∧ ∀ p ∈ zs, (minW : ℝ) ≤ p.2 := by
  induction names generalizing dw acc with
  | nil => exact ⟨[], by simp, rfl, by simp⟩
  | cons hd tl ih =>
    simp only [List.nodup_cons] at hnd
    rw [List.foldl_cons]
    have hstep : dwZStep symbol regime vol minW (dw, acc) hd
        = (dwEnsure dw symbol hd,
           acc ++ [(hd, dwRaw ((dictGet ((dictGet (dwEnsure dw symbol hd) symbol).getD [])
              hd).getD dwDefaultSig) regime hd vol minW)]) := by
      show (dwEnsure dw symbol hd,
          dictSet acc hd (dwRaw ((dictGet ((dictGet (dwEnsure dw symbol hd) symbol).getD [])
            hd).getD dwDefaultSig) regime hd vol minW)) = _
      rw [dictSet_of_get_none _ _ _ (hfresh hd (by simp))]
    rw [hstep]
    obtain ⟨zs', hz', hk', hv'⟩ := ih (dwEnsure dw symbol hd)
      (acc ++ [(hd, dwRaw ((dictGet ((dictGet (dwEnsure dw symbol hd) symbol).getD [])
        hd).getD dwDefaultSig) regime hd vol minW)]) hnd.2
      (by
        intro k hk
        have hkne : hd ≠ k := fun he => hnd.1 (he ▸ hk)
        rw [dictGet_append_of_none _ _ _ (hfresh k (by simp [hk]))]
        simp [dictGet_cons, hkne])
    refine ⟨(hd, dwRaw ((dictGet ((dictGet (dwEnsure dw symbol hd) symbol).getD [])
        hd).getD dwDefaultSig) regime hd vol minW) :: zs', ?_, ?_, ?_⟩
    · rw [hz']
      simp
    · simp [hk']
    · intro p hp
      rcases List.mem_cons.1 hp with rfl | hp'
      · exact le_max_left _ _
      · exact hv' p hp'

theorem sumValues_map (names : List String) (f : String → ℝ) :
    sumValues (names.map fun sig => (sig, f sig)) = (names.map f).sum := by
  unfold sumValues
  rw [List.map_map]
  rfl

theorem list_sum_div (l : List ℝ) (c : ℝ) :
    (l.map (fun x => x / c)).sum = l.sum / c := by
  induction l with
  | nil => simp
  | cons hd tl ih => simp [ih, add_div]

theorem sum_dictGet_of_keys (z : List (String × ℝ)) (names : List String)
    (hk : z.map Prod.fst = names) (hnd : names.Nodup) :
    (names.map fun sig => (dictGet z sig).getD 0).sum = sumValues z := by
  induction z generalizing names with
  | nil =>
    rw [← hk]
    simp [sumValues]
  | cons hd tl ih =>
    obtain ⟨k, v⟩ := hd
    rw [← hk]
    rw [← hk] at hnd
    simp only [List.map_cons, List.nodup_cons] at hnd ⊢
    rw [show dictGet ((k, v) :: tl) k = some v from by simp [dictGet_cons]]
    have hmap : (tl.map Prod.fst).map (fun sig => (dictGet ((k, v) :: tl) sig).getD 0)
        = (tl.map Prod.fst).map (fun sig => (dictGet tl sig).getD 0) := by
      apply List.map_congr_left
      intro g hg
      have hne : k ≠ g := fun he => hnd.1 (he ▸ hg)
      rw [dictGet_cons, if_neg hne]
    rw [hmap]
    rw [List.sum_cons, ih (tl.map Prod.fst) rfl hnd.2]
    simp [sumValues]

theorem sumValues_nonneg (z : List (String × ℝ)) (h : ∀ p ∈ z, 0 ≤ p.2) :
    0 ≤ sumValues z := by
  induction z with
  | nil => simp [sumValues]
  | cons hd tl ih =>
    have h1 := h hd (by simp)
    have h2 := ih (fun p hp => h p (by simp [hp]))
    simp only [sumValues, List.map_cons, List.sum_cons]
    have : (0 : ℝ) ≤ (tl.map Prod.snd).sum := h2
    linarith

theorem sumValues_pos (z : List (String × ℝ)) (c : ℝ) (hc : 0 < c)
    (h : ∀ p ∈ z, c ≤ p.2) (hne : z ≠ []) : 0 < sumValues z := by
  cases z with
  | nil => exact absurd rfl hne
  | cons hd tl =>
    have h1 := h hd (by simp)
    have h2 : (0 : ℝ) ≤ sumValues tl :=
      sumValues_nonneg tl (fun p hp => le_trans (le_of_lt hc) (h p (by simp [hp])))
    simp only [sumValues, List.map_cons, List.sum_cons]
    have : (0 : ℝ) ≤ (tl.map Prod.snd).sum := h2
    linarith

/-- C8 counterexample: with an empty list of requested signals, compute
returns the empty dict, whose weights sum to 0, not 1 — refuting the claim
for every list of signal names. -/
theorem claim_C8_counterexample :
    dwCompute (1 / 20) [] "XAUUSD" [] (some "range") (some 0) = []
    ∧ sumValues (dwCompute (1 / 20) [] "XAUUSD" [] (some "range") (some 0)) ≠ 1 := by
  have h : dwCompute (1 / 20) [] "XAUUSD" [] (some "range") (some 0) = [] := by
    unfold dwCompute dwZ dwUniform
    simp [sumValues]
  refine ⟨h, ?_⟩
  rw [h]
  unfold sumValues
  norm_num

/-- C8 (amended): for a positive configured floor and a NONEMPTY list of
distinct signal names, compute's output sums to exactly 1, every
pre-normalization raw value is at least the floor, and whenever the
pre-normalization total is non-positive the result is the uniform fallback
dict. -/
theorem claim_C8_dynamic_weights_normalized (dw : DWState) (symbol : String)
    (names : List String) (regime : Option String) (vol : Option ℚ) (minW : ℚ)
    (hminW : 0 < minW) (hne : names ≠ []) (hnd : names.Nodup) :
    sumValues (dwCompute minW dw symbol names regime vol) = 1
    ∧ (∀ p ∈ (dwZ dw symbol (dwRegime regime) (dwVol vol) minW names).2,
        (minW : ℝ) ≤ p.2)
    ∧ (sumValues (dwZ dw symbol (dwRegime regime) (dwVol vol) minW names).2 ≤ 0 →
        dwCompute minW dw symbol names regime vol = dwUniform names) := by
  obtain ⟨zs, hz, hkeys, hvals⟩ := dwZ_go symbol (dwRegime regime) (dwVol vol) minW
    names dw [] hnd (by simp)
  have hz2 : (dwZ dw symbol (dwRegime regime) (dwVol vol) minW names).2 = zs := by
    unfold dwZ
    rw [hz]
    simp
  have hzne : zs ≠ [] := by
    intro h0
    rw [h0] at hkeys
    exact hne hkeys.symm
  have hminWR : (0 : ℝ) < (minW : ℝ) := by exact_mod_cast hminW
  have hpos : 0 < sumValues zs := sumValues_pos zs (minW : ℝ) hminWR hvals hzne
  have hcompute : dwCompute minW dw symbol names regime vol
      = names.foldl
          (fun acc sig => dictSet acc sig ((dictGet zs sig).getD 0 / sumValues zs)) [] := by
    unfold dwCompute
    show (if sumValues (dwZ dw symbol (dwRegime regime) (dwVol vol) minW names).2 ≤ 0
        then dwUniform names
        else names.foldl (fun acc sig => dictSet acc sig
          ((dictGet (dwZ dw symbol (dwRegime regime) (dwVol vol) minW names).2 sig).getD 0
            / sumValues (dwZ dw symbol (dwRegime regime) (dwVol vol) minW names).2)) [])
      = _
    rw [hz2, if_neg (not_le.2 hpos)]
  refine ⟨?_, hz2 ▸ hvals, ?_⟩
  · rw [hcompute,
      foldl_dictSet_fresh (fun sig => (dictGet zs sig).getD 0 / sumValues zs) names [] hnd
        (by simp)]
    rw [List.nil_append, sumValues_map]
    rw [show (names.map fun sig => (dictGet zs sig).getD 0 / sumValues zs)
        = (names.map fun sig => (dictGet zs sig).getD 0).map (fun x => x / sumValues zs) from by
      rw [List.map_map]
      rfl]
    rw [list_sum_div, sum_dictGet_of_keys zs names hkeys hnd]
    exact div_self (ne_of_gt hpos)
  · intro hle
    rw [hz2] at hle
    exact absurd hle (not_le.2 hpos)

/-- C8 witness: two distinct signals on a fresh weighting state, trend
regime and a small volatility reading. -/
theorem claim_C8_witness :
    sumValues (dwCompute (1 / 20) [] "XAUUSD" ["kf_trend", "ou_revert"]
        (some "trend") (some (1 / 100))) = 1
    ∧ (∀ p ∈ (dwZ [] "XAUUSD" (dwRegime (some "trend")) (dwVol (some (1 / 100))) (1 / 20)
        ["kf_trend", "ou_revert"]).2, (((1 : ℚ) / 20 : ℚ) : ℝ) ≤ p.2)
    ∧ (sumValues (dwZ [] "XAUUSD" (dwRegime (some "trend")) (dwVol (some (1 / 100))) (1 / 20)
        ["kf_trend", "ou_revert"]).2 ≤ 0 →
        dwCompute (1 / 20) [] "XAUUSD" ["kf_trend", "ou_revert"]
          (some "trend") (some (1 / 100)) = dwUniform ["kf_trend", "ou_revert"]) :=
  claim_C8_dynamic_weights_normalized [] "XAUUSD" ["kf_trend", "ou_revert"]
    (some "trend") (some (1 / 100)) (1 / 20) (by norm_num) (by simp) (by simp)

end XAUBot
